import Mathlib

/-!
Verification of the bilizir-demo core (src/main.go) against its
natural-language specification.

The Go source is shallowly embedded:

* The external `stsound` chip-music decoder (an out-of-repo library) is
  modelled by the trace of results of its successive `Compute` calls:
  each call returns a "more data available" flag and the contents it
  leaves in the scratch buffer.  The wrapper code under verification
  depends on the decoder only through those results.
* Go `int16` / `int64` values are embedded as `Int`, `uint8` channel
  values as `Nat` with the wrap-around written explicitly (`% 256`).
* Go `float64` volume arithmetic is embedded over `ℚ`: the conversion
  `int16(float64(sample) * volume)` truncates toward zero, embedded as
  `ratTrunc`.  (Out of the int16 range the Go conversion is
  implementation-defined; all properties below stay in range.)
* The rotation code uses `math.Cos` / `math.Sin`, embedded over `ℝ`.
* Perspective projection divides by `200 + z`; Go float division is
  total (IEEE: a zero divisor yields a non-finite value, not a crash),
  so the embedding returns `Option`: `none` marks the degenerate case
  in which the source performs the division with divisor exactly `0`
  and no finite projected point exists.  The source contains no guard;
  the `if` below is the embedding of the IEEE non-finite outcome.
* A nil-pointer dereference (calling `Compute` on the decoder after
  `Close` has set it to `nil`) is a Go runtime panic, embedded as the
  `none` result of `Read`.
-/

namespace Bilizir

/-- Go `byte(sample), byte(sample>>8)` for an int16 `sample`
(src/main.go line 118): the little-endian byte pair of the
two's-complement 16-bit value. `>>` on a signed value is an arithmetic
shift, i.e. floor division by 256. -/
def encLE (s : Int) : List Nat :=
  [(s % 256).toNat, ((s.fdiv 256) % 256).toNat]

/-- Truncation toward zero: the Go conversion `int16(q)` of a float64
value `q` that lies in the int16 range. -/
def ratTrunc (q : ℚ) : Int :=
  if 0 ≤ q then q.floor else -((-q).floor)

/-- `int16(float64(y.buffer[i]) * y.volume)` (src/main.go line 107). -/
def scaleSample (s : Int) (vol : ℚ) : Int :=
  ratTrunc ((s : ℚ) * vol)

/-- Environment model of the external stsound decoder: the trace of the
results of its successive `Compute` calls.  Each entry is the pair of
the returned "more data" flag and the mono samples the call leaves in
the scratch buffer. -/
abbrev Decoder := List (Bool × List Int)

/-- One `y.player.Compute(y.buffer[:chunkSize], chunkSize)` call
(src/main.go line 96): consumes the next trace entry; the effective
buffer contents are the entry's samples cut to the requested chunk
size (the decoder always fills the slice it is handed). -/
def computeStep (dec : Decoder) (n : Nat) : Bool × List Int × Decoder :=
  match dec with
  | [] => (false, List.replicate n 0, [])
  | r :: rest => (r.1, (r.2 ++ List.replicate n 0).take n, rest)

/-- The chunked decode loop of `YMPlayer.Read` (src/main.go lines
90-114), fuel-indexed for structural recursion; `readLoop` instantiates
the fuel with the remaining sample count, which suffices because every
iteration consumes at least one sample (the scratch buffer holds 4096
samples, src/main.go line 74).  Returns the interleaved stereo int16
output, the end-of-stream flag (`err = io.EOF`), the remaining decoder
trace, and the number of mono samples `processed` (the amount added to
`y.position`). -/
def readChunksF (vol : ℚ) (loopFlag : Bool) :
    Nat → Decoder → Nat → List Int × Bool × Decoder × Nat
  | _, dec, 0 => ([], false, dec, 0)
  | 0, dec, _ + 1 => ([], false, dec, 0)
  | fuel + 1, dec, n + 1 =>
      let chunkSize := min (n + 1) 4096
      let step := computeStep dec chunkSize
      if step.1 = false ∧ loopFlag = false then
        (List.replicate ((n + 1) * 2) 0, true, step.2.2, 0)
      else
        let scaled := step.2.1.flatMap (fun s => [scaleSample s vol, scaleSample s vol])
        let rest := readChunksF vol loopFlag fuel step.2.2 (n + 1 - chunkSize)
        (scaled ++ rest.1, rest.2.1, rest.2.2.1, chunkSize + rest.2.2.2)

/-- The decode loop of `YMPlayer.Read` for `samplesNeeded` mono
samples. -/
def readLoop (vol : ℚ) (loopFlag : Bool) (dec : Decoder) (samplesNeeded : Nat) :
    List Int × Bool × Decoder × Nat :=
  readChunksF vol loopFlag samplesNeeded dec samplesNeeded

/-- The mono samples consumed by the decode loop, before volume scaling
and stereo duplication (the zero-filled tail appears as zero samples).
Same recursion skeleton as `readChunksF`; used to state what `Read`
emits per decoded sample. -/
def monoChunksF (loopFlag : Bool) :
    Nat → Decoder → Nat → List Int × Bool × Decoder × Nat
  | _, dec, 0 => ([], false, dec, 0)
  | 0, dec, _ + 1 => ([], false, dec, 0)
  | fuel + 1, dec, n + 1 =>
      let chunkSize := min (n + 1) 4096
      let step := computeStep dec chunkSize
      if step.1 = false ∧ loopFlag = false then
        (List.replicate (n + 1) 0, true, step.2.2, 0)
      else
        let rest := monoChunksF loopFlag fuel step.2.2 (n + 1 - chunkSize)
        (step.2.1 ++ rest.1, rest.2.1, rest.2.2.1, chunkSize + rest.2.2.2)

/-- The mono sample stream underlying one `Read` call. -/
def monoSamples (loopFlag : Bool) (dec : Decoder) (samplesNeeded : Nat) :
    List Int × Bool × Decoder × Nat :=
  monoChunksF loopFlag samplesNeeded dec samplesNeeded

/-- `YMPlayer` (src/main.go lines 46-55).  The scratch `buffer` field
is represented by its fixed capacity 4096 inside the decode loop; its
contents are part of the decoder trace.  The mutex serializes the
methods, which are embedded as sequential state transformers. -/
structure YMPlayer where
  player : Option Decoder
  sampleRate : Nat
  position : Int
  totalSamples : Int
  loop : Bool
  volume : ℚ
deriving DecidableEq

/-- `NewYMPlayer` (src/main.go lines 58-79) after a successful
`LoadMemory`: `totalSamples = int64(info.MusicTimeInMs) * int64(sampleRate) / 1000`
(nonnegative operands, so Go's truncating division agrees with `Nat`
division), initial volume `0.5`. -/
def NewYMPlayer (dec : Decoder) (durationMs sampleRate : Nat) (loop : Bool) : YMPlayer :=
  { player := some dec
    sampleRate := sampleRate
    position := 0
    totalSamples := (durationMs * sampleRate / 1000 : Nat)
    loop := loop
    volume := 1/2 }

/-- Result of one `YMPlayer.Read` call: the bytes written into `p`,
the returned count `n`, whether `err = io.EOF`, and the state after
the call. -/
structure ReadResult where
  buf : List Nat
  n : Nat
  eof : Bool
  state : YMPlayer
deriving DecidableEq

/-- `YMPlayer.Read` (src/main.go lines 82-128).  `samplesNeeded =
len(p)/4`.  When the player has been closed (`y.player = nil`) and the
loop body runs, the source dereferences the nil decoder
(`y.player.Compute`), a runtime panic: embedded as `none`.  If
`samplesNeeded = 0` the loop body never runs and the call returns
`n = 0` with no error. -/
def Read (y : YMPlayer) (pLen : Nat) : Option ReadResult :=
  let samplesNeeded := pLen / 4
  match y.player with
  | none =>
      if samplesNeeded = 0 then some ⟨[], 0, false, y⟩ else none
  | some dec =>
      let r := readLoop y.volume y.loop dec samplesNeeded
      let buf := r.1.flatMap encLE
      some ⟨buf, min buf.length pLen, r.2.1,
            { y with player := some r.2.2.1, position := y.position + r.2.2.2 }⟩

/-- `YMPlayer.SetVolume` (src/main.go lines 131-135). -/
def SetVolume (y : YMPlayer) (v : ℚ) : YMPlayer :=
  { y with volume := v }

/-- `YMPlayer.GetVolume` (src/main.go lines 138-142). -/
def GetVolume (y : YMPlayer) : ℚ :=
  y.volume

/-- The two sequential clamps of `YMPlayer.Seek` (src/main.go lines
161-166): first raise to 0, then cap at `totalSamples`. -/
def clampPos (np total : Int) : Int :=
  let np1 := if np < 0 then 0 else np
  if np1 > total then total else np1

/-- `YMPlayer.Seek` (src/main.go lines 145-170).  `whence` values are
`io.SeekStart = 0`, `io.SeekCurrent = 1`, `io.SeekEnd = 2`.  Returns
`((returned position, error?), state after the call)`; an unrecognized
`whence` returns `(0, error)` and leaves the state unchanged. -/
def Seek (y : YMPlayer) (offset : Int) (whence : Nat) : (Int × Bool) × YMPlayer :=
  match whence with
  | 0 =>
      let np := clampPos offset y.totalSamples
      ((np, false), { y with position := np })
  | 1 =>
      let np := clampPos (y.position + offset) y.totalSamples
      ((np, false), { y with position := np })
  | 2 =>
      let np := clampPos (y.totalSamples + offset) y.totalSamples
      ((np, false), { y with position := np })
  | _ => ((0, true), y)

/-- `YMPlayer.Close` (src/main.go lines 173-182).  Returns the new
state, the number of `player.Destroy()` calls made by this call, and
the returned error (always nil, i.e. `false`). -/
def Close (y : YMPlayer) : YMPlayer × Nat × Bool :=
  match y.player with
  | some _ => ({ y with player := none }, 1, false)
  | none => (y, 0, false)

/-- A sequence of `n` consecutive `Close` calls: final state and the
total number of `Destroy` calls made. -/
def closes (y : YMPlayer) : Nat → YMPlayer × Nat
  | 0 => (y, 0)
  | n + 1 =>
      let c := Close y
      let r := closes c.1 n
      (r.1, c.2.1 + r.2)

/-- `project3D` (src/main.go lines 220-225): perspective projection
with fixed focal length 200.  Go float division is total; a zero
divisor yields a non-finite factor (IEEE infinity), embedded as
`none`: the branch below models the IEEE outcome of the unguarded
division, not a guard present in the source. -/
def project3D (x y z : ℚ) : Option (ℚ × ℚ) :=
  let perspective : ℚ := 200
  if perspective + z = 0 then
    none
  else
    let factor := perspective / (perspective + z)
    some (x * factor, y * factor)

/-- The per-vertex rotation of `Cube3D.Draw` (src/main.go lines
263-284): X-axis rotation, then Y-axis, then Z-axis, exactly as the
source sequences the assignments. -/
noncomputable def rotateVertex (aX aY aZ : ℝ) (v : ℝ × ℝ × ℝ) : ℝ × ℝ × ℝ :=
  let x := v.1
  let y := v.2.1
  let z := v.2.2
  let cosX := Real.cos aX
  let sinX := Real.sin aX
  let y1 := y * cosX - z * sinX
  let z1 := y * sinX + z * cosX
  let cosY := Real.cos aY
  let sinY := Real.sin aY
  let x1 := x * cosY + z1 * sinY
  let z2 := -x * sinY + z1 * cosY
  let cosZ := Real.cos aZ
  let sinZ := Real.sin aZ
  let x2 := x1 * cosZ - y1 * sinZ
  let y2 := x1 * sinZ + y1 * cosZ
  (x2, y2, z2)

/-- Standard 2D rotation in the y-z plane (spec wording: "the
X-rotation mixes y,z using cos/sin of angleX"). -/
noncomputable def rotX (a : ℝ) (v : ℝ × ℝ × ℝ) : ℝ × ℝ × ℝ :=
  (v.1, v.2.1 * Real.cos a - v.2.2 * Real.sin a,
   v.2.1 * Real.sin a + v.2.2 * Real.cos a)

/-- Standard 2D rotation in the x-z plane about the Y axis. -/
noncomputable def rotY (a : ℝ) (v : ℝ × ℝ × ℝ) : ℝ × ℝ × ℝ :=
  (v.1 * Real.cos a + v.2.2 * Real.sin a, v.2.1,
   -v.1 * Real.sin a + v.2.2 * Real.cos a)

/-- Standard 2D rotation in the x-y plane about the Z axis. -/
noncomputable def rotZ (a : ℝ) (v : ℝ × ℝ × ℝ) : ℝ × ℝ × ℝ :=
  (v.1 * Real.cos a - v.2.1 * Real.sin a,
   v.1 * Real.sin a + v.2.1 * Real.cos a, v.2.2)

/-- One channel of the outline stroke color (src/main.go lines
329-334): `uint8(channel * 3 / 4)` computed in uint8 arithmetic, so
the product wraps modulo 256 before the division. -/
def darkenChannel (c : Nat) : Nat :=
  c * 3 % 256 / 4

/-- A `color.RGBA` value, channels in `0..255`. -/
structure RGBA where
  r : Nat
  g : Nat
  b : Nat
  a : Nat
deriving DecidableEq

/-- The `edgeColor` computed for a face (src/main.go lines 329-334). -/
def edgeColor (c : RGBA) : RGBA :=
  ⟨darkenChannel c.r, darkenChannel c.g, darkenChannel c.b, 255⟩

/-- `faceColors` (src/main.go lines 252-259). -/
def faceColors : List RGBA :=
  [⟨255, 80, 160, 255⟩, ⟨255, 120, 200, 255⟩, ⟨200, 60, 140, 255⟩,
   ⟨255, 100, 180, 255⟩, ⟨220, 80, 160, 255⟩, ⟨255, 140, 200, 255⟩]

/-- The cube vertex template (src/main.go lines 230-239), for an
unrotated cube of the given size. -/
def cubeVertices (size : ℚ) : List (ℚ × ℚ × ℚ) :=
  [(-size/2, -size/2, -size/2), (size/2, -size/2, -size/2),
   (size/2, size/2, -size/2), (-size/2, size/2, -size/2),
   (-size/2, -size/2, size/2), (size/2, -size/2, size/2),
   (size/2, size/2, size/2), (-size/2, size/2, size/2)]

/-- The cube face index table (src/main.go lines 242-249). -/
def cubeFaces : List (List Nat) :=
  [[0, 1, 2, 3], [4, 5, 6, 7], [0, 1, 5, 4],
   [2, 3, 7, 6], [0, 3, 7, 4], [1, 2, 6, 5]]

/-- The depth key of a face (src/main.go lines 294-301): the average of
the (here unrotated, angles all zero) z-coordinates of its 4
vertices. -/
def faceDepthKey (size : ℚ) (f : List Nat) : ℚ :=
  (f.map (fun i => ((cubeVertices size).getD i (0, 0, 0)).2.2)).sum / 4

/-- The `depths` list built before sorting (src/main.go line 292-301):
face index paired with its depth key, in face-table order. -/
def cubeDepths (size : ℚ) : List (Nat × ℚ) :=
  (List.range cubeFaces.length).map
    (fun i => (i, faceDepthKey size (cubeFaces.getD i [])))

/-- One pass of the inner `j` loop of the depth sort (src/main.go lines
304-310) for position `i`: `a` is `depths[i]`, the list holds
`depths[i+1..]`.  Whenever `depths[i].depth > depths[j].depth` the two
entries swap, so the accumulator always carries the current minimum and
position `j` receives the previous holder. -/
def selectMin (a : Nat × ℚ) : List (Nat × ℚ) → (Nat × ℚ) × List (Nat × ℚ)
  | [] => (a, [])
  | x :: xs =>
      if a.2 > x.2 then
        let r := selectMin x xs
        (r.1, a :: r.2)
      else
        let r := selectMin a xs
        (r.1, x :: r.2)

/-- The outer `i` loop of the depth sort, fuel-indexed (the fuel is
instantiated with the list length, which suffices since `selectMin`
preserves length). -/
def ssortAux : Nat → List (Nat × ℚ) → List (Nat × ℚ)
  | _, [] => []
  | 0, _ :: _ => []
  | fuel + 1, a :: xs =>
      let r := selectMin a xs
      r.1 :: ssortAux fuel r.2

/-- The depth sort of `Cube3D.Draw` (src/main.go lines 304-310) on a
list of (face index, depth key) pairs. -/
def sortFacesByDepth (l : List (Nat × ℚ)) : List (Nat × ℚ) :=
  ssortAux l.length l

end Bilizir

namespace Bilizir

/-! ### Helper lemmas -/

theorem ratFloor_intCast (s : Int) : (s : ℚ).floor = s := by
  rw [Rat.floor_def']
  simp

theorem ratTrunc_intCast (s : Int) : ratTrunc (s : ℚ) = s := by
  unfold ratTrunc
  split_ifs with h
  · exact ratFloor_intCast s
  · have h2 : -(s : ℚ) = ((-s : Int) : ℚ) := by push_cast; ring
    rw [h2, ratFloor_intCast]
    ring

theorem scaleSample_zero_vol (s : Int) : scaleSample s 0 = 0 := by
  have h : ((s : ℚ) * 0) = (((0 : Int) : ℚ)) := by push_cast; ring
  rw [scaleSample, h, ratTrunc_intCast]

theorem scaleSample_one_vol (s : Int) : scaleSample s 1 = s := by
  rw [scaleSample, mul_one, ratTrunc_intCast]

theorem scaleSample_zero_sample (vol : ℚ) : scaleSample 0 vol = 0 := by
  have h : (((0 : Int) : ℚ) * vol) = (((0 : Int) : ℚ)) := by push_cast; ring
  rw [scaleSample, h, ratTrunc_intCast]

theorem encLE_zero : encLE 0 = [0, 0] := rfl

theorem encLE_length (s : Int) : (encLE s).length = 2 := rfl

theorem encLE_le_bytes (s : Int) :
    encLE s = [(s % 65536).toNat % 256, (s % 65536).toNat / 256] := by
  rw [encLE, Int.fdiv_eq_ediv _ (by norm_num)]
  have h1 : ((s % 256).toNat) = (s % 65536).toNat % 256 := by omega
  have h2 : ((s / 256 % 256).toNat) = (s % 65536).toNat / 256 := by omega
  rw [h1, h2]

theorem clampPos_eq (np total : Int) : clampPos np total = min (max np 0) total := by
  unfold clampPos
  dsimp only
  split_ifs <;> omega

theorem Close_player_none (y : YMPlayer) : (Close y).1.player = none := by
  rcases hy : y.player with _ | d <;> simp [Close, hy]

theorem Close_of_none (y : YMPlayer) (h : y.player = none) : Close y = (y, 0, false) := by
  unfold Close
  rw [h]

theorem closes_destroys_of_none (y : YMPlayer) (h : y.player = none) :
    ∀ n, (closes y n).2 = 0 := by
  intro n
  induction n generalizing y with
  | zero => rfl
  | succ n ih =>
      simp only [closes, Close_of_none y h]
      rw [ih y h]

/-! ### Claim theorems -/

set_option maxRecDepth 10000 in
/-- C3 (amended): each outline channel comes out of uint8 arithmetic,
`(c * 3 mod 256) / 4`; it equals the truncated 0.75 scaling `c * 3 / 4`
exactly for channels `c ≤ 85`, and wraps for larger channels. -/
theorem edge_channel_formula : ∀ c : Nat, c < 256 → (darkenChannel c = c * 3 / 4 ↔ c ≤ 85) := by
  decide

/-- C3 counterexample: for face 0's fill color (255, 80, 160) the
stroke channels are (63, 60, 56), not the claimed 0.75 scaling
(191, 60, 120): the red and blue channels wrap in uint8. -/
theorem edge_color_overflow_counterexample :
    edgeColor ⟨255, 80, 160, 255⟩ = ⟨63, 60, 56, 255⟩
  ∧ faceColors.getD 0 ⟨0, 0, 0, 0⟩ = ⟨255, 80, 160, 255⟩
  ∧ darkenChannel 255 ≠ 255 * 3 / 4
  ∧ darkenChannel 160 ≠ 160 * 3 / 4 := by
  refine ⟨rfl, rfl, by decide, by decide⟩

/-- Witness for C3's amended theorem at channel value 100. -/
theorem edge_channel_formula_witness :
    darkenChannel 100 = 100 * 3 / 4 ↔ 100 ≤ 85 :=
  edge_channel_formula 100 (by decide)

/-- C5 (amended): the projection computes `factor = 200 / (200 + z)`
and scales x and y by it whenever `200 + z ≠ 0`; the source contains
no guard, and at `z = -200` the division by the zero divisor is
performed (IEEE: non-finite result, modelled `none`). -/
theorem project3D_formula_and_degenerate :
    ∀ x y z : ℚ,
      (200 + z ≠ 0 →
        project3D x y z = some (x * (200 / (200 + z)), y * (200 / (200 + z))))
    ∧ project3D x y (-200) = none := by
  intro x y z
  constructor
  · intro h
    simp [project3D, h]
  · norm_num [project3D]

/-- C5 counterexample: at `z = -200` the divisor `200 + z` is exactly
zero and the unguarded division is executed, so no finite projected
point exists. -/
theorem project_divzero_counterexample :
    project3D 1 1 (-200) = none ∧ (200 : ℚ) + (-200) = 0 := by
  constructor
  · norm_num [project3D]
  · norm_num

/-- Witness for C5's amended theorem at (1, 2, 0). -/
theorem project3D_formula_witness :
    project3D 1 2 0 = some (1 * (200 / (200 + 0)), 2 * (200 / (200 + 0))) :=
  (project3D_formula_and_degenerate 1 2 0).1 (by norm_num)

/-- C8: the per-vertex rotation is the standard X-plane, Y-plane and
Z-plane 2D rotations applied in the order X then Y then Z, and at
angles all zero it is the identity on every vertex. -/
theorem rotate_order_and_identity :
    ∀ (aX aY aZ : ℝ) (v : ℝ × ℝ × ℝ),
      rotateVertex aX aY aZ v = rotZ aZ (rotY aY (rotX aX v))
    ∧ rotateVertex 0 0 0 v = v := by
  intro aX aY aZ v
  refine ⟨rfl, ?_⟩
  simp [rotateVertex]

/-- C2 (code evaluated at the failing input): after `Close`, a `Read`
asking for at least one frame reaches `y.player.Compute` with
`y.player = nil` — a nil-pointer dereference (`none`), not the
detect-and-return-silence behavior the spec requires.  `Seek` and
`SetVolume` after `Close` do operate safely on the remaining fields. -/
theorem read_after_close_dereferences_nil :
    Read (Close (NewYMPlayer [(true, [5])] 1000 44100 false)).1 4096 = none
  ∧ Read (Close (NewYMPlayer [(true, [5])] 1000 44100 false)).1 2
      = some ⟨[], 0, false, (Close (NewYMPlayer [(true, [5])] 1000 44100 false)).1⟩
  ∧ Seek (Close (NewYMPlayer [(true, [5])] 1000 44100 false)).1 3 0
      = ((3, false),
         { (Close (NewYMPlayer [(true, [5])] 1000 44100 false)).1 with position := 3 })
  ∧ GetVolume (SetVolume (Close (NewYMPlayer [(true, [5])] 1000 44100 false)).1 (3/4)) = 3/4 := by
  refine ⟨rfl, rfl, rfl, rfl⟩

/-- C9: `Close` is idempotent: across any sequence of `Close` calls the
decoder's `Destroy` is invoked at most once, never after the handle is
already nil, and a second `Close` is an error-free no-op. -/
theorem close_idempotent :
    ∀ (y : YMPlayer) (n : Nat),
      (closes y n).2 ≤ 1
    ∧ (y.player = none → (closes y n).2 = 0)
    ∧ Close (Close y).1 = ((Close y).1, 0, false) := by
  intro y n
  refine ⟨?_, fun h => closes_destroys_of_none y h n, Close_of_none _ (Close_player_none y)⟩
  cases n with
  | zero => exact Nat.zero_le 1
  | succ n =>
      have hrest : (closes (Close y).1 n).2 = 0 :=
        closes_destroys_of_none _ (Close_player_none y) n
      have hc : (Close y).2.1 ≤ 1 := by
        rcases hy : y.player with _ | d <;> simp [Close, hy]
      simp only [closes]
      omega

/-- Witness for C9 at a closed player and three further closes. -/
theorem close_idempotent_witness :
    (closes (Close (NewYMPlayer [] 1 1 true)).1 3).2 = 0 :=
  (close_idempotent (Close (NewYMPlayer [] 1 1 true)).1 3).2.1 rfl

/-- C6: `Seek` with modes 0/1/2 clamps base + offset into
`[0, totalSamples]`, stores it as the new position (touching no other
field) and returns it; any other mode returns the invalid-whence error
and leaves the whole state unchanged. -/
theorem seek_modes_clamp_and_invalid :
    ∀ (y : YMPlayer) (offset : Int),
      Seek y offset 0 = ((min (max offset 0) y.totalSamples, false),
        { y with position := min (max offset 0) y.totalSamples })
    ∧ Seek y offset 1 = ((min (max (y.position + offset) 0) y.totalSamples, false),
        { y with position := min (max (y.position + offset) 0) y.totalSamples })
    ∧ Seek y offset 2 = ((min (max (y.totalSamples + offset) 0) y.totalSamples, false),
        { y with position := min (max (y.totalSamples + offset) 0) y.totalSamples })
    ∧ ∀ whence : Nat, 3 ≤ whence → Seek y offset whence = ((0, true), y) := by
  intro y offset
  refine ⟨by simp [Seek, clampPos_eq], by simp [Seek, clampPos_eq],
          by simp [Seek, clampPos_eq], ?_⟩
  intro whence hw
  obtain ⟨m, rfl⟩ : ∃ m, whence = m + 3 := ⟨whence - 3, by omega⟩
  rfl

/-- Witness for C6 at an invalid mode value 7. -/
theorem seek_invalid_mode_witness :
    Seek (NewYMPlayer [] 5 1000 false) 3 7 = ((0, true), NewYMPlayer [] 5 1000 false) :=
  (seek_modes_clamp_and_invalid (NewYMPlayer [] 5 1000 false) 3).2.2.2 7 (by norm_num)

theorem selectMin_length (a : Nat × ℚ) (xs : List (Nat × ℚ)) :
    (selectMin a xs).2.length = xs.length := by
  induction xs generalizing a with
  | nil => rfl
  | cons x xs ih =>
      simp only [selectMin]
      split_ifs <;> simp [ih]

theorem selectMin_perm (a : Nat × ℚ) (xs : List (Nat × ℚ)) :
    List.Perm ((selectMin a xs).1 :: (selectMin a xs).2) (a :: xs) := by
  induction xs generalizing a with
  | nil => exact List.Perm.refl _
  | cons x xs ih =>
      simp only [selectMin]
      split_ifs with h
      · exact (List.Perm.swap a (selectMin x xs).1 (selectMin x xs).2).trans
          ((ih x).cons a)
      · exact ((List.Perm.swap x (selectMin a xs).1 (selectMin a xs).2).trans
          ((ih a).cons x)).trans (List.Perm.swap a x xs)

theorem selectMin_le (a : Nat × ℚ) (xs : List (Nat × ℚ)) :
    ∀ b ∈ a :: xs, (selectMin a xs).1.2 ≤ b.2 := by
  induction xs generalizing a with
  | nil =>
      intro b hb
      simp only [List.mem_singleton] at hb
      subst hb
      exact le_refl _
  | cons x xs ih =>
      intro b hb
      simp only [selectMin]
      split_ifs with h
      · rcases List.mem_cons.mp hb with rfl | hb2
        · exact le_of_lt (lt_of_le_of_lt (ih x x (List.mem_cons_self x xs)) h)
        · exact ih x b hb2
      · rcases List.mem_cons.mp hb with rfl | hb2
        · exact ih b b (List.mem_cons_self b xs)
        · rcases List.mem_cons.mp hb2 with rfl | hb3
          · exact le_trans (ih a a (List.mem_cons_self a xs)) (not_lt.mp h)
          · exact ih a b (List.mem_cons_of_mem a hb3)

theorem ssortAux_perm : ∀ (fuel : Nat) (l : List (Nat × ℚ)), l.length ≤ fuel →
    List.Perm (ssortAux fuel l) l := by
  intro fuel
  induction fuel with
  | zero =>
      intro l hl
      have : l = [] := List.length_eq_zero.mp (Nat.le_zero.mp hl)
      subst this
      exact List.Perm.refl _
  | succ fuel ih =>
      intro l hl
      cases l with
      | nil => exact List.Perm.refl _
      | cons a xs =>
          simp only [ssortAux]
          have hlen : (selectMin a xs).2.length ≤ fuel := by
            rw [selectMin_length]
            simp only [List.length_cons] at hl
            omega
          exact ((ih (selectMin a xs).2 hlen).cons (selectMin a xs).1).trans
            (selectMin_perm a xs)

theorem ssortAux_sorted : ∀ (fuel : Nat) (l : List (Nat × ℚ)), l.length ≤ fuel →
    (ssortAux fuel l).Pairwise (fun p q => p.2 ≤ q.2) := by
  intro fuel
  induction fuel with
  | zero =>
      intro l _
      cases l <;> simp [ssortAux]
  | succ fuel ih =>
      intro l hl
      cases l with
      | nil => simp [ssortAux]
      | cons a xs =>
          simp only [ssortAux]
          have hlen : (selectMin a xs).2.length ≤ fuel := by
            rw [selectMin_length]
            simp only [List.length_cons] at hl
            omega
          rw [List.pairwise_cons]
          refine ⟨?_, ih (selectMin a xs).2 hlen⟩
          intro b hb
          have hb2 : b ∈ (selectMin a xs).2 :=
            (ssortAux_perm fuel (selectMin a xs).2 hlen).mem_iff.mp hb
          have hb3 : b ∈ a :: xs :=
            (selectMin_perm a xs).mem_iff.mp (List.mem_cons_of_mem _ hb2)
          exact selectMin_le a xs b hb3

/-- C4 counterexample: the depth sort is not order-preserving under
ties.  On the keyed list [(0, 1), (1, 1), (2, 0)] the two entries with
equal key 1 come out in reversed relative order (the swap with the
smaller key 0 reorders them), so the stable result [(2,0), (0,1), (1,1)]
demanded by the claim is not produced. -/
theorem depth_sort_stability_counterexample :
    sortFacesByDepth [(0, 1), (1, 1), (2, 0)] = [(2, 0), (1, 1), (0, 1)]
  ∧ [((2 : Nat), (0 : ℚ)), (1, 1), (0, 1)] ≠ [(2, 0), (0, 1), (1, 1)] := by
  refine ⟨by decide, by decide⟩

/-- C4 (amended): the depth sort always produces a permutation of its
input in non-decreasing depth-key order, and on the 6 faces of an
unrotated cube (size 20, as in the program) it deterministically yields
the fixed order back(0), bottom(2), top(3), left(4), right(5),
front(1); but it is a selection-style exchange sort, not stable, so
faces with equal depth keys may be reordered. -/
theorem depth_sort_sorted_and_cube_order :
    (∀ l : List (Nat × ℚ),
        (sortFacesByDepth l).Pairwise (fun p q => p.2 ≤ q.2)
      ∧ List.Perm (sortFacesByDepth l) l)
  ∧ sortFacesByDepth (cubeDepths 20)
      = [(0, -10), (2, 0), (3, 0), (4, 0), (5, 0), (1, 10)] := by
  refine ⟨fun l => ⟨ssortAux_sorted l.length l (le_refl _),
    ssortAux_perm l.length l (le_refl _)⟩, ?_⟩
  have h1 : cubeDepths 20 = [(0, -10), (1, 10), (2, 0), (3, 0), (4, 0), (5, 0)] := by
    norm_num [cubeDepths, faceDepthKey, cubeVertices, cubeFaces, List.range_succ]
  rw [h1]
  norm_num [sortFacesByDepth, ssortAux, selectMin]


theorem computeStep_length (dec : Decoder) (n : Nat) :
    (computeStep dec n).2.1.length = n := by
  cases dec with
  | nil => simp [computeStep]
  | cons r rest =>
      simp [computeStep]

theorem flatMap_length_two {α β : Type} (f : α → List β) (hf : ∀ a, (f a).length = 2) :
    ∀ l : List α, (l.flatMap f).length = 2 * l.length := by
  intro l
  induction l with
  | nil => rfl
  | cons a l ih =>
      simp only [List.flatMap_cons, List.length_append, hf, ih, List.length_cons]
      omega

theorem drop_append_len {α : Type} (l₁ l₂ : List α) (k i : Nat) (h : l₁.length = k) :
    (l₁ ++ l₂).drop (k + i) = l₂.drop i := by
  subst h
  rw [← List.drop_drop, List.drop_left]

theorem flatMap_drop_two {α β : Type} (f : α → List β) (hf : ∀ a, (f a).length = 2) :
    ∀ (l : List α) (j : Nat), (l.flatMap f).drop (2 * j) = (l.drop j).flatMap f := by
  intro l
  induction l with
  | nil => intro j; simp
  | cons a l ih =>
      intro j
      cases j with
      | zero => simp
      | succ j =>
          rw [List.flatMap_cons, show 2 * (j + 1) = 2 + 2 * j by ring,
            drop_append_len (f a) (l.flatMap f) 2 (2 * j) (hf a), ih j]
          simp

theorem flatMap_pair_replicate {β : Type} (f : Int → List β) (c : β) (hf : f 0 = [c, c]) :
    ∀ k : Nat, (List.replicate k (0 : Int)).flatMap f = List.replicate (2 * k) c := by
  intro k
  induction k with
  | zero => rfl
  | succ k ih =>
      rw [List.replicate_succ, List.flatMap_cons, hf, ih,
        show 2 * (k + 1) = (2 * k + 1) + 1 by ring,
        List.replicate_succ, List.replicate_succ]
      rfl

theorem readChunksF_eq_mono (vol : ℚ) (lf : Bool) :
    ∀ (fuel : Nat) (dec : Decoder) (n : Nat),
      readChunksF vol lf fuel dec n
        = ((monoChunksF lf fuel dec n).1.flatMap
             (fun s => [scaleSample s vol, scaleSample s vol]),
           (monoChunksF lf fuel dec n).2) := by
  intro fuel
  induction fuel with
  | zero =>
      intro dec n
      cases n <;> simp [readChunksF, monoChunksF]
  | succ fuel ih =>
      intro dec n
      cases n with
      | zero => simp [readChunksF, monoChunksF]
      | succ n =>
          simp only [readChunksF, monoChunksF]
          split_ifs with h
          · rw [flatMap_pair_replicate
                (fun s => [scaleSample s vol, scaleSample s vol]) (0 : Int)
                (by simp [scaleSample_zero_sample])]
            simp [Nat.mul_comm]
          · rw [ih]
            simp [List.flatMap_append]

theorem monoChunksF_length (lf : Bool) :
    ∀ (fuel : Nat) (dec : Decoder) (n : Nat), n ≤ fuel →
      (monoChunksF lf fuel dec n).1.length = n := by
  intro fuel
  induction fuel with
  | zero =>
      intro dec n h
      obtain rfl : n = 0 := Nat.le_zero.mp h
      rfl
  | succ fuel ih =>
      intro dec n h
      cases n with
      | zero => rfl
      | succ n =>
          simp only [monoChunksF]
          split_ifs with hif
          · simp
          · rw [List.length_append, computeStep_length, ih _ _ (by omega)]
            omega

theorem monoChunksF_eof :
    ∀ (fuel : Nat) (dec : Decoder) (n : Nat), n ≤ fuel →
      (monoChunksF false fuel dec n).2.1 = true →
      (monoChunksF false fuel dec n).2.2.2 < n
      ∧ (monoChunksF false fuel dec n).1.drop ((monoChunksF false fuel dec n).2.2.2)
          = List.replicate (n - (monoChunksF false fuel dec n).2.2.2) 0 := by
  intro fuel
  induction fuel with
  | zero =>
      intro dec n h heof
      obtain rfl : n = 0 := Nat.le_zero.mp h
      simp [monoChunksF] at heof
  | succ fuel ih =>
      intro dec n h heof
      cases n with
      | zero => simp [monoChunksF] at heof
      | succ n =>
          simp only [monoChunksF] at heof ⊢
          split_ifs at heof ⊢ with hif
          · dsimp only
            simp
          · dsimp only at heof ⊢
            have hrec := ih _ _ (show n + 1 - min (n + 1) 4096 ≤ fuel by omega) heof
            have hcs := computeStep_length dec (min (n + 1) 4096)
            have hmin : 1 ≤ min (n + 1) 4096 := by omega
            refine ⟨by omega, ?_⟩
            rw [drop_append_len _ _ _ _ hcs, hrec.2]
            congr 1
            omega

theorem Read_some (dec : Decoder) (sr : Nat) (pos tot : Int) (lf : Bool) (vol : ℚ)
    (pLen : Nat) :
    Read ⟨some dec, sr, pos, tot, lf, vol⟩ pLen
      = some ⟨(readLoop vol lf dec (pLen / 4)).1.flatMap encLE,
              min ((readLoop vol lf dec (pLen / 4)).1.flatMap encLE).length pLen,
              (readLoop vol lf dec (pLen / 4)).2.1,
              ⟨some (readLoop vol lf dec (pLen / 4)).2.2.1, sr,
               pos + (readLoop vol lf dec (pLen / 4)).2.2.2, tot, lf, vol⟩⟩ := rfl

theorem Read_buf_eq (dec : Decoder) (sr : Nat) (pos tot : Int) (lf : Bool) (vol : ℚ)
    (pLen : Nat) :
    (Read ⟨some dec, sr, pos, tot, lf, vol⟩ pLen).map ReadResult.buf
      = some ((monoSamples lf dec (pLen / 4)).1.flatMap
          (fun m => encLE (scaleSample m vol) ++ encLE (scaleSample m vol))) := by
  rw [Read_some, Option.map_some']
  simp only [readLoop, monoSamples, readChunksF_eq_mono]
  rw [List.flatMap_assoc]
  simp


/-- C7: the decode loop output is exactly the per-sample pipeline: each
consumed mono sample (including zero-fill) is scaled by the current
volume with truncation toward zero and duplicated into both stereo
channels; volume 0 maps every sample to 0 and volume 1 is the identity;
each int16 is serialized as its little-endian two's-complement byte
pair, so `Read` emits 4 bytes (lo, hi, lo, hi) per mono sample. -/
theorem read_sample_pipeline :
    ∀ (vol : ℚ) (lf : Bool) (dec : Decoder) (nReq : Nat) (s : Int)
      (sr : Nat) (pos tot : Int) (pLen : Nat),
      (readLoop vol lf dec nReq).1
        = (monoSamples lf dec nReq).1.flatMap
            (fun m => [scaleSample m vol, scaleSample m vol])
    ∧ scaleSample s 0 = 0
    ∧ scaleSample s 1 = s
    ∧ encLE s = [(s % 65536).toNat % 256, (s % 65536).toNat / 256]
    ∧ (Read ⟨some dec, sr, pos, tot, lf, vol⟩ pLen).map ReadResult.buf
        = some ((monoSamples lf dec (pLen / 4)).1.flatMap
            (fun m => encLE (scaleSample m vol) ++ encLE (scaleSample m vol))) := by
  intro vol lf dec nReq s sr pos tot pLen
  refine ⟨?_, scaleSample_zero_vol s, scaleSample_one_vol s, encLE_le_bytes s,
    Read_buf_eq dec sr pos tot lf vol pLen⟩
  simp only [readLoop, monoSamples, readChunksF_eq_mono]

/-- C10 (implicit in the source): a freshly constructed player has
volume 0.5; `GetVolume` returns it, and the first `Read` scales every
decoded sample by 1/2. -/
theorem default_volume_half :
    ∀ (dec : Decoder) (durationMs rate : Nat) (lf : Bool) (pLen : Nat),
      GetVolume (NewYMPlayer dec durationMs rate lf) = 1/2
    ∧ (NewYMPlayer dec durationMs rate lf).volume = 1/2
    ∧ (Read (NewYMPlayer dec durationMs rate lf) pLen).map ReadResult.buf
        = some ((monoSamples lf dec (pLen / 4)).1.flatMap
            (fun m => encLE (scaleSample m (1/2)) ++ encLE (scaleSample m (1/2)))) := by
  intro dec durationMs rate lf pLen
  exact ⟨rfl, rfl, Read_buf_eq dec rate 0 _ lf (1/2) pLen⟩

/-- C1 counterexample: a non-looping read of 2 frames (pLen = 8) whose
decoder reports exhaustion on its first chunk: the whole output is
zero-filled and endOfStream is returned, but the position counter
advances by 0, not by the requested frameCount 2 — the zero-filled
tail is not counted. -/
theorem read_eof_position_counterexample :
    (Read ⟨some [(false, [])], 44100, 0, 44100, false, 1/2⟩ 8).map
        (fun r => (r.state.position, r.eof, r.buf))
      = some (0, true, List.replicate 8 0)
  ∧ (0 : Int) ≠ 2 := by
  exact ⟨rfl, by decide⟩

/-- C1 (amended): when a non-looping `Read` hits decoder exhaustion,
the remainder of the output buffer is zero-filled and endOfStream
returned, but the position advances only by the `k` mono samples
produced by the successful decoder chunks before the exhaustion —
strictly fewer than the requested frameCount; the zero-filled tail is
not counted. -/
theorem read_eof_zero_fill_position :
    ∀ (sr : Nat) (pos tot : Int) (vol : ℚ) (dec : Decoder) (pLen : Nat)
      (res : ReadResult),
      Read ⟨some dec, sr, pos, tot, false, vol⟩ pLen = some res →
      res.eof = true →
      ∃ k : Nat, k < pLen / 4
        ∧ res.state.position = pos + k
        ∧ res.buf.length = 4 * (pLen / 4)
        ∧ res.buf.drop (4 * k) = List.replicate (4 * (pLen / 4) - 4 * k) 0 := by
  intro sr pos tot vol dec pLen res hread heof
  rw [Read_some] at hread
  obtain rfl := (Option.some.inj hread).symm
  try dsimp only at heof ⊢
  simp only [readLoop, readChunksF_eq_mono] at heof ⊢
  try dsimp only at heof ⊢
  have hm := monoChunksF_eof (pLen / 4) dec (pLen / 4) (le_refl _) heof
  have hlen := monoChunksF_length false (pLen / 4) dec (pLen / 4) (le_refl _)
  refine ⟨(monoChunksF false (pLen / 4) dec (pLen / 4)).2.2.2, hm.1, rfl, ?_, ?_⟩
  · rw [flatMap_length_two encLE encLE_length,
      flatMap_length_two (fun m => [scaleSample m vol, scaleSample m vol]) (fun a => rfl),
      hlen]
    ring
  · rw [show 4 * (monoChunksF false (pLen / 4) dec (pLen / 4)).2.2.2
        = 2 * (2 * (monoChunksF false (pLen / 4) dec (pLen / 4)).2.2.2) by ring,
      flatMap_drop_two encLE encLE_length,
      flatMap_drop_two (fun m => [scaleSample m vol, scaleSample m vol]) (fun a => rfl),
      hm.2,
      flatMap_pair_replicate
        (fun m => [scaleSample m vol, scaleSample m vol]) (0 : Int)
        (by simp [scaleSample_zero_sample]),
      flatMap_pair_replicate encLE (0 : Nat) encLE_zero]
    congr 1
    omega

/-- Witness for C1's amended theorem: pLen = 8 against a decoder that
is exhausted immediately; k = 0 of the 2 requested frames. -/
theorem read_eof_zero_fill_position_witness :
    ∃ k : Nat, k < 8 / 4
      ∧ (⟨List.replicate 8 0, 8, true,
           ⟨some [], 44100, 0, 44100, false, 1/2⟩⟩ : ReadResult).state.position = 0 + k
      ∧ (⟨List.replicate 8 0, 8, true,
           ⟨some [], 44100, 0, 44100, false, 1/2⟩⟩ : ReadResult).buf.length = 4 * (8 / 4)
      ∧ (⟨List.replicate 8 0, 8, true,
           ⟨some [], 44100, 0, 44100, false, 1/2⟩⟩ : ReadResult).buf.drop (4 * k)
          = List.replicate (4 * (8 / 4) - 4 * k) 0 :=
  read_eof_zero_fill_position 44100 0 44100 (1/2) [(false, [])] 8
    ⟨List.replicate 8 0, 8, true, ⟨some [], 44100, 0, 44100, false, 1/2⟩⟩ rfl rfl

end Bilizir
